import Mathlib

/-!
Shallow embedding of the bm25-rs in-memory BM25 search index (`src/lib.rs`).

Modelling conventions:
* `u32` values (doc ids, lengths, counts) are modelled as `ℕ`; none of the
  verified properties exercise wrap-around arithmetic.
* `FxHashMap<String, u32>` (a document's `term_freq`) is modelled as the total
  function `String → ℕ`, identifying an absent key with the count 0; the code
  only ever stores strictly positive counts, so key presence coincides with a
  non-zero value.
* `FxHashMap<String, Vec<u32>>` (`inverted_index`) is modelled as
  `String → List ℕ`, identifying an absent key with the empty posting list;
  `doc_frequency`, `search` and `delete` all treat the two identically.
* `FxHashMap<u32, DocumentStats>` (`doc_stats`) is modelled as a list of
  `DocumentStats` records keyed by their `doc_id` field (the code always uses
  the stored `doc_id` as the key); map insertion is remove-then-append, which
  agrees with hash-map insertion for the unique-key states the code produces.
* `f64` scores are modelled as real numbers, with `Real.log` for `f64::ln`.
* `BinaryHeap<Reverse<(OrderedFloat<f64>, u32)>>` is modelled as a list kept
  sorted in ascending lexicographic order of `(score, doc_id)`: `peek` is the
  head, `pop` is the tail, and draining then reversing yields the descending
  order the code returns.
-/

namespace BM25

/-- A run of non-whitespace characters is accumulated in `cur` (reversed);
whitespace flushes it. This is `str::split_whitespace` on the char level. -/
def tokenizeChars : List Char → List Char → List String
  | [], cur => if cur = [] then [] else [⟨cur.reverse⟩]
  | c :: cs, cur =>
    if c.isWhitespace then
      (if cur = [] then [] else [⟨cur.reverse⟩]) ++ tokenizeChars cs []
    else tokenizeChars cs (c :: cur)

/-- `tokenize` from `src/lib.rs`: split a document on whitespace. -/
def tokenize (doc : String) : List String := tokenizeChars doc.data []

/-- `stemmer` from `src/lib.rs`: the identity placeholder. -/
def stemmer (words : List String) : List String := words

/-- `DocumentStats` from `src/lib.rs`. -/
@[ext]
structure DocumentStats where
  doc_id : ℕ
  doc_length : ℕ
  term_freq : String → ℕ

/-- `Index` from `src/lib.rs`. -/
@[ext]
structure Index where
  inverted_index : String → List ℕ
  doc_stats : List DocumentStats
  total_doc_lengths : ℕ
  k : ℝ
  b : ℝ

/-- `Index::new`: the empty index with the hard-coded constants. -/
def Index.new : Index :=
  { inverted_index := fun _ => []
    doc_stats := []
    total_doc_lengths := 0
    k := 1.5
    b := 0.75 }

/-- `Index::update_inverted_index`: push `doc_id` onto the term's posting
list once per occurrence of the term in `terms`. -/
def updateInvertedIndex (inv : String → List ℕ) (terms : List String)
    (doc_id : ℕ) : String → List ℕ :=
  terms.foldl (fun m term => fun t => if t = term then m t ++ [doc_id] else m t) inv

/-- `Index::doc_frequency`: the length of the term's posting list. -/
def Index.doc_frequency (s : Index) (term : String) : ℕ :=
  (s.inverted_index term).length

/-- `Index::term_frequency`: occurrence counts of each term; the loop's
result is exactly `List.count`. -/
def term_frequency (terms : List String) : String → ℕ :=
  fun t => terms.count t

/-- `doc_stats.get(&doc_id)` / `contains_key`: the entry stored for `doc_id`. -/
def lookupStats (s : Index) (doc_id : ℕ) : Option DocumentStats :=
  s.doc_stats.find? (fun d => d.doc_id == doc_id)

/-- `Index::insert`. -/
def Index.insert (s : Index) (doc : String) (doc_id : ℕ) : Index :=
  let terms := stemmer (tokenize doc)
  { inverted_index := updateInvertedIndex s.inverted_index terms doc_id
    doc_stats := (s.doc_stats.filter (fun d => d.doc_id != doc_id)) ++
      [{ doc_id := doc_id, doc_length := terms.length,
         term_freq := term_frequency terms }]
    total_doc_lengths := s.total_doc_lengths + terms.length
    k := s.k
    b := s.b }

/-- `Index::delete`: remove the document's stats, subtract its length, and
retain-filter its id out of the posting list of every term it contained. -/
def Index.delete (s : Index) (doc_id : ℕ) : Index :=
  match lookupStats s doc_id with
  | none => s
  | some doc =>
    { inverted_index := fun t =>
        if doc.term_freq t ≠ 0 then (s.inverted_index t).filter (fun i => i != doc_id)
        else s.inverted_index t
      doc_stats := s.doc_stats.filter (fun d => d.doc_id != doc_id)
      total_doc_lengths := s.total_doc_lengths - doc.doc_length
      k := s.k
      b := s.b }

/-- `Index::upsert`: delete first when the id is present, then insert. -/
def Index.upsert (s : Index) (doc : String) (doc_id : ℕ) : Index :=
  (if (lookupStats s doc_id).isSome then s.delete doc_id else s).insert doc doc_id

/-- Lexicographic order on `(OrderedFloat<f64>, u32)` pairs, as used by the
heap of `Index::search`. -/
def lexLe (a b : ℝ × ℕ) : Prop :=
  a.1 < b.1 ∨ (a.1 = b.1 ∧ a.2 ≤ b.2)

noncomputable instance (a b : ℝ × ℕ) : Decidable (lexLe a b) :=
  Classical.propDecidable _

/-- One candidate step of the bounded top-k heap in `Index::search`: insert
while below capacity, otherwise evict the minimum only when the new score is
strictly greater than the minimum retained score.  The heap is modelled as a
list sorted ascending by `lexLe`, inserted into with `List.orderedInsert`;
`peek` is the head and `pop` drops the head. -/
noncomputable def pushTopK (top_k : ℕ) (h : List (ℝ × ℕ)) (x : ℝ × ℕ) :
    List (ℝ × ℕ) :=
  if h.length < top_k then h.orderedInsert lexLe x
  else
    match h with
    | [] => h
    | m :: rest => if m.1 < x.1 then rest.orderedInsert lexLe x else m :: rest

/-- Ascending insertion sort on doc ids (`sort_unstable`). -/
def insSorted (i : ℕ) : List ℕ → List ℕ
  | [] => [i]
  | j :: js => if i ≤ j then i :: j :: js else j :: insSorted i js

/-- `doc_ids.sort_unstable()`. -/
def sortNat (l : List ℕ) : List ℕ := l.foldr insSorted []

/-- `doc_ids.dedup()`: collapse consecutive duplicates. -/
def dedupAdj : List ℕ → List ℕ
  | [] => []
  | [i] => [i]
  | i :: j :: rest =>
    if i = j then dedupAdj (j :: rest) else i :: dedupAdj (j :: rest)

/-- The per-token normalization in `Index::search`:
`stemmer(&[t])[0]` for each token of the query. -/
def searchQueryTerms (query : String) : List String :=
  (tokenize query).map (fun t => (stemmer [t]).headI)

/-- The sorted, deduplicated union of the posting lists of the query terms. -/
def candidateIds (s : Index) (qts : List String) : List ℕ :=
  dedupAdj (sortNat (qts.foldl (fun acc t => acc ++ s.inverted_index t) []))

/-- The score the inner loop of `Index::search` accumulates for one candidate
document: one additive contribution per query-term occurrence that is present
in the document and has a non-empty posting list. -/
noncomputable def scoreDoc (s : Index) (qts : List String) (avg numDocs : ℝ)
    (doc : DocumentStats) : ℝ :=
  let lengthNorm := s.k * ((1 - s.b) + s.b * (doc.doc_length : ℝ) / avg)
  qts.foldl
    (fun score term =>
      if doc.term_freq term ≠ 0 then
        let tf : ℝ := (doc.term_freq term : ℝ)
        let df : ℝ := (s.doc_frequency term : ℝ)
        if 0 < df then
          score + (tf / (lengthNorm + tf)) *
            Real.log ((numDocs - df + 0.5) / (df + 0.5) + 1)
        else score
      else score)
    0

/-- `num_docs` of `Index::search` as a real number. -/
def numDocsR (s : Index) : ℝ := (s.doc_stats.length : ℝ)

/-- `avg_doc_length` of `Index::search`. -/
noncomputable def avgR (s : Index) : ℝ :=
  (s.total_doc_lengths : ℝ) / (s.doc_stats.length : ℝ)

/-- The candidate loop of `Index::search`: feed every indexed candidate into
the bounded heap. -/
noncomputable def searchHeap (s : Index) (qts : List String) (top_k : ℕ) :
    List (ℝ × ℕ) :=
  (candidateIds s qts).foldl
    (fun h doc_id =>
      match lookupStats s doc_id with
      | none => h
      | some doc => pushTopK top_k h (scoreDoc s qts (avgR s) (numDocsR s) doc, doc_id))
    []

/-- `Index::search`: drain the heap in ascending order, then reverse. -/
noncomputable def Index.search (s : Index) (query : String) (top_k : ℕ) :
    List (ℝ × ℕ) :=
  (searchHeap s (searchQueryTerms query) top_k).reverse

/-! ### Specification-side definitions

These follow the wording of the specification (sections 4.4, 4.5, 3 and 8),
to be compared with the code-derived definitions above. -/

/-- Modelled from the spec (section 4.4): the BM25 contribution of one query
term `t` to a candidate document `d`; a term with `df = 0` or `tf = 0`
contributes 0. -/
noncomputable def specTermContribution (s : Index) (numDocs avg : ℝ)
    (d : DocumentStats) (t : String) : ℝ :=
  if s.doc_frequency t = 0 ∨ d.term_freq t = 0 then 0
  else
    ((d.term_freq t : ℝ) /
        ((d.term_freq t : ℝ) +
          s.k * (1 - s.b + s.b * (d.doc_length : ℝ) / avg))) *
      Real.log ((numDocs - (s.doc_frequency t : ℝ) + 0.5) /
        ((s.doc_frequency t : ℝ) + 0.5) + 1)

/-- The spec's score with one contribution per query-term occurrence. -/
noncomputable def specScoreOcc (s : Index) (qts : List String)
    (d : DocumentStats) : ℝ :=
  (qts.map (specTermContribution s (numDocsR s) (avgR s) d)).sum

/-- Modelled from the spec (section 4.4): the score as a sum of contributions
over the distinct query terms, duplicates contributing only once. -/
noncomputable def specScoreDistinct (s : Index) (qts : List String)
    (d : DocumentStats) : ℝ :=
  ((qts.dedup).map (specTermContribution s (numDocsR s) (avgR s) d)).sum

/-- The per-occurrence score keyed by doc id (0 for an unindexed id). -/
noncomputable def specScoreOccOfId (s : Index) (qts : List String) (i : ℕ) : ℝ :=
  match lookupStats s i with
  | some d => specScoreOcc s qts d
  | none => 0

/-- The distinct-terms score keyed by doc id (0 for an unindexed id). -/
noncomputable def specScoreDistinctOfId (s : Index) (qts : List String)
    (i : ℕ) : ℝ :=
  match lookupStats s i with
  | some d => specScoreDistinct s qts d
  | none => 0

/-- The score the candidate loop computes for a candidate id, for a given
normalized query-term list. -/
noncomputable def assignedScoreQts (s : Index) (qts : List String) (i : ℕ) : ℝ :=
  match lookupStats s i with
  | some d => scoreDoc s qts (avgR s) (numDocsR s) d
  | none => 0

/-- The score `Index::search` computes for a candidate id. -/
noncomputable def assignedScore (s : Index) (query : String) (i : ℕ) : ℝ :=
  assignedScoreQts s (searchQueryTerms query) i

/-- The number of candidate documents whose assigned score is strictly
positive (the quantity claim C7 says bounds the result length). -/
noncomputable def posCandCount (s : Index) (query : String) : ℕ :=
  ((candidateIds s (searchQueryTerms query)).filter
    (fun i => decide (0 < assignedScore s query i))).length

/-- The number of currently indexed documents whose term-frequency map
contains the term (document-frequency semantics of the spec). -/
def distinctDocCount (s : Index) (t : String) : ℕ :=
  (s.doc_stats.filter (fun d => d.term_freq t != 0)).length

/-- The stored occurrence count of term `t` in document `i`, 0 when the
document is not indexed or does not contain the term. -/
def statsTF (s : Index) (i : ℕ) (t : String) : ℕ :=
  match lookupStats s i with
  | some d => d.term_freq t
  | none => 0

/-- The ordering claim C3 asserts for search output: non-increasing scores,
ties in ascending doc id order. -/
def claimOrderedC3 (l : List (ℝ × ℕ)) : Prop :=
  l.Pairwise (fun x y => y.1 ≤ x.1 ∧ (y.1 = x.1 → x.2 < y.2))

/-! ### Operation sequences -/

/-- The public mutating operations of the index. -/
inductive Op where
  | upsert (doc : String) (doc_id : ℕ)
  | delete (doc_id : ℕ)

/-- Apply one public operation. -/
def applyOp (s : Index) : Op → Index
  | .upsert doc doc_id => s.upsert doc doc_id
  | .delete doc_id => s.delete doc_id

/-- Run a sequence of public operations from the empty index. -/
def runOps (ops : List Op) : Index := ops.foldl applyOp Index.new

/-- Structural universal quantification over a list, used to state
per-result-entry properties without a hypothesis binder. -/
def listAll (p : α → Prop) : List α → Prop
  | [] => True
  | x :: xs => p x ∧ listAll p xs

/-- The state invariant maintained by the public operations: doc ids are
unique keys, the length aggregate matches the stored lengths, each posting
list holds a document's id once per stored occurrence of the term, and the
posting-list length is the total stored occurrence count of the term. -/
def GoodState (s : Index) : Prop :=
  (s.doc_stats.map (fun d => d.doc_id)).Nodup ∧
  s.total_doc_lengths = (s.doc_stats.map (fun d => d.doc_length)).sum ∧
  (∀ t i, (s.inverted_index t).count i = statsTF s i t) ∧
  (∀ t, s.doc_frequency t = (s.doc_stats.map (fun d => d.term_freq t)).sum)

/-! ### Basic lemmas about the embedded operations -/

theorem updateInvertedIndex_apply (terms : List String) (inv : String → List ℕ)
    (doc_id : ℕ) (t : String) :
    updateInvertedIndex inv terms doc_id t =
      inv t ++ List.replicate (terms.count t) doc_id := by
  induction terms generalizing inv with
  | nil => simp [updateInvertedIndex]
  | cons term rest ih =>
    simp only [updateInvertedIndex, List.foldl_cons] at ih ⊢
    rw [ih]
    by_cases h : t = term
    · subst h
      simp [List.count_cons, List.replicate_succ, if_pos rfl]
    · simp [List.count_cons, h, if_neg h]

theorem count_filter_self (l : List ℕ) (i : ℕ) :
    (l.filter (fun j => j != i)).count i = 0 := by
  rw [List.count_eq_zero]
  intro hmem
  have := (List.mem_filter.mp hmem).2
  simp at this

theorem count_filter_other (l : List ℕ) (i j : ℕ) (h : j ≠ i) :
    (l.filter (fun a => a != i)).count j = l.count j := by
  induction l with
  | nil => rfl
  | cons a rest ih =>
    by_cases ha : a = i
    · subst ha
      simp [List.filter_cons, List.count_cons, Ne.symm h, ih]
    · simp [List.filter_cons, ha, List.count_cons, ih]

theorem length_filter_add_count (l : List ℕ) (i : ℕ) :
    (l.filter (fun j => j != i)).length + l.count i = l.length := by
  induction l with
  | nil => rfl
  | cons a rest ih =>
    by_cases ha : a = i
    · subst ha
      simp [List.filter_cons, List.count_cons]
      omega
    · simp [List.filter_cons, ha, List.count_cons]
      omega

theorem filter_ne_of_count_zero (l : List ℕ) (i : ℕ)
    (h : l.count i = 0) : l.filter (fun j => j != i) = l := by
  apply List.filter_eq_self.mpr
  intro a ha
  have : a ≠ i := by
    intro he; subst he; exact absurd (List.count_eq_zero.mp h) (by simp [ha])
  simp [this]

theorem find?_filter_ne (l : List DocumentStats) (i : ℕ) :
    (l.filter (fun d => d.doc_id != i)).find? (fun d => d.doc_id == i) = none := by
  rw [List.find?_eq_none]
  intro d hd
  have := (List.mem_filter.mp hd).2
  simpa using this

theorem find?_filter_other (l : List DocumentStats) (i j : ℕ) (h : j ≠ i) :
    (l.filter (fun d => d.doc_id != i)).find? (fun d => d.doc_id == j) =
      l.find? (fun d => d.doc_id == j) := by
  induction l with
  | nil => rfl
  | cons d rest ih =>
    by_cases hd : d.doc_id = i
    · have h1 : (d.doc_id != i) = false := by simp [hd]
      have h2 : (d.doc_id == j) = false := by simp [hd]; omega
      simp [List.filter_cons, h1, List.find?_cons, h2, ih]
    · have h1 : (d.doc_id != i) = true := by simp [hd]
      by_cases hj : d.doc_id = j
      · simp [List.filter_cons, h1, List.find?_cons, hj, h]
      · have h2 : (d.doc_id == j) = false := by simp [hj]
        simp [List.filter_cons, h1, List.find?_cons, h2, ih]

theorem filter_ne_of_find?_none (l : List DocumentStats) (i : ℕ)
    (h : l.find? (fun d => d.doc_id == i) = none) :
    l.filter (fun d => d.doc_id != i) = l := by
  apply List.filter_eq_self.mpr
  intro d hd
  have := List.find?_eq_none.mp h d hd
  simpa using this

theorem filter_ne_idem (l : List DocumentStats) (i : ℕ) :
    (l.filter (fun d => d.doc_id != i)).filter (fun d => d.doc_id != i) =
      l.filter (fun d => d.doc_id != i) := by
  apply List.filter_eq_self.mpr
  intro d hd
  exact (List.mem_filter.mp hd).2

theorem lookup_insert_self (s : Index) (doc : String) (i : ℕ) :
    lookupStats (s.insert doc i) i =
      some { doc_id := i, doc_length := (stemmer (tokenize doc)).length,
             term_freq := term_frequency (stemmer (tokenize doc)) } := by
  simp [Index.insert, lookupStats, List.find?_append, find?_filter_ne]

theorem lookup_insert_other (s : Index) (doc : String) (i j : ℕ) (h : j ≠ i) :
    lookupStats (s.insert doc i) j = lookupStats s j := by
  have h2 : ((i : ℕ) == j) = false := by simp; omega
  simp [Index.insert, lookupStats, List.find?_append, find?_filter_other _ _ _ h, h2]

theorem lookup_delete_self (s : Index) (i : ℕ) :
    lookupStats (s.delete i) i = none := by
  unfold Index.delete
  cases hl : lookupStats s i with
  | none => exact hl
  | some d => simp [lookupStats, find?_filter_ne]

theorem lookup_delete_other (s : Index) (i j : ℕ) (h : j ≠ i) :
    lookupStats (s.delete i) j = lookupStats s j := by
  unfold Index.delete
  cases hl : lookupStats s i with
  | none => rfl
  | some d => simp [lookupStats, find?_filter_other _ _ _ h]

/-! ### Preservation of the state invariant -/

theorem sum_filter_add (f : DocumentStats → ℕ) (l : List DocumentStats) (i : ℕ)
    (d₀ : DocumentStats) (hnd : (l.map (fun d => d.doc_id)).Nodup)
    (hfind : l.find? (fun d => d.doc_id == i) = some d₀) :
    ((l.filter (fun d => d.doc_id != i)).map f).sum + f d₀ = (l.map f).sum := by
  induction l with
  | nil => simp at hfind
  | cons d rest ih =>
    rw [List.map_cons, List.nodup_cons] at hnd
    obtain ⟨hdn, hndr⟩ := hnd
    by_cases hd : d.doc_id = i
    · have hde : d = d₀ := by
        have : (d.doc_id == i) = true := by simp [hd]
        simpa [List.find?_cons, this] using hfind
      subst hde
      have hnotin : ∀ e ∈ rest, e.doc_id ≠ i := by
        intro e he hei
        exact hdn (by
          rw [hd]
          exact hei ▸ List.mem_map_of_mem (fun d => d.doc_id) he)
      have hrest : rest.filter (fun d => d.doc_id != i) = rest :=
        List.filter_eq_self.mpr (fun e he => by simp [hnotin e he])
      simp [List.filter_cons, hd, hrest]
      omega
    · have h1 : (d.doc_id == i) = false := by simp [hd]
      have h2 : (d.doc_id != i) = true := by simp [hd]
      have := ih hndr (by simpa [List.find?_cons, h1] using hfind)
      simp [List.filter_cons, h2]
      omega

theorem not_mem_keys_of_find?_none (l : List DocumentStats) (i : ℕ)
    (h : l.find? (fun d => d.doc_id == i) = none) :
    i ∉ l.map (fun d => d.doc_id) := by
  intro hmem
  obtain ⟨d, hd, hdi⟩ := List.mem_map.mp hmem
  have := List.find?_eq_none.mp h d hd
  simp [hdi] at this

theorem count_replicate_nat (n a b : ℕ) :
    (List.replicate n a).count b = if b = a then n else 0 := by
  induction n with
  | zero => simp
  | succ m ih =>
    by_cases h : b = a <;>
      simp [List.replicate_succ, List.count_cons, h, ih]

theorem insert_inverted (s : Index) (doc : String) (i : ℕ) (t : String) :
    (s.insert doc i).inverted_index t =
      s.inverted_index t ++
        List.replicate ((stemmer (tokenize doc)).count t) i := by
  simp [Index.insert, updateInvertedIndex_apply]

theorem insert_doc_stats (s : Index) (doc : String) (i : ℕ) :
    (s.insert doc i).doc_stats =
      (s.doc_stats.filter (fun d => d.doc_id != i)) ++
        [{ doc_id := i, doc_length := (stemmer (tokenize doc)).length,
           term_freq := term_frequency (stemmer (tokenize doc)) }] := rfl

theorem insert_total (s : Index) (doc : String) (i : ℕ) :
    (s.insert doc i).total_doc_lengths =
      s.total_doc_lengths + (stemmer (tokenize doc)).length := rfl

theorem insert_good (s : Index) (doc : String) (i : ℕ) (hg : GoodState s)
    (hnone : lookupStats s i = none) : GoodState (s.insert doc i) := by
  obtain ⟨hnd, htot, hcount, hdf⟩ := hg
  have hfil : s.doc_stats.filter (fun d => d.doc_id != i) = s.doc_stats :=
    filter_ne_of_find?_none _ _ hnone
  refine ⟨?_, ?_, ?_, ?_⟩
  · rw [insert_doc_stats, hfil, List.map_append]
    rw [List.nodup_append]
    exact ⟨hnd, by simp, by
      intro a ha hb
      simp at hb
      subst hb
      exact not_mem_keys_of_find?_none _ _ hnone ha⟩
  · rw [insert_total, insert_doc_stats, hfil, List.map_append, List.sum_append,
      htot]
    simp
  · intro t j
    rw [insert_inverted, List.count_append, count_replicate_nat]
    by_cases hj : j = i
    · subst hj
      have hnew : statsTF (s.insert doc j) j t =
          (stemmer (tokenize doc)).count t := by
        simp [statsTF, lookup_insert_self, term_frequency]
      rw [if_pos rfl, hnew]
      have h0 : statsTF s j t = 0 := by simp [statsTF, hnone]
      have hc := hcount t j
      omega
    · have hne : statsTF (s.insert doc i) j t = statsTF s j t := by
        simp [statsTF, lookup_insert_other s doc i j hj]
      rw [if_neg hj, hne]
      have hc := hcount t j
      omega
  · intro t
    rw [Index.doc_frequency, insert_inverted, List.length_append,
      List.length_replicate, insert_doc_stats, hfil, List.map_append,
      List.sum_append]
    have := hdf t
    rw [Index.doc_frequency] at this
    simp [this, term_frequency]

theorem delete_inverted (s : Index) (i : ℕ) (d₀ : DocumentStats)
    (hl : lookupStats s i = some d₀) (t : String) :
    (s.delete i).inverted_index t =
      if d₀.term_freq t ≠ 0 then (s.inverted_index t).filter (fun j => j != i)
      else s.inverted_index t := by
  simp [Index.delete, hl]

theorem delete_doc_stats (s : Index) (i : ℕ) (d₀ : DocumentStats)
    (hl : lookupStats s i = some d₀) :
    (s.delete i).doc_stats = s.doc_stats.filter (fun d => d.doc_id != i) := by
  simp [Index.delete, hl]

theorem delete_total (s : Index) (i : ℕ) (d₀ : DocumentStats)
    (hl : lookupStats s i = some d₀) :
    (s.delete i).total_doc_lengths = s.total_doc_lengths - d₀.doc_length := by
  simp [Index.delete, hl]

theorem delete_good (s : Index) (i : ℕ) (hg : GoodState s) :
    GoodState (s.delete i) := by
  obtain ⟨hnd, htot, hcount, hdf⟩ := hg
  cases hl : lookupStats s i with
  | none => simpa [Index.delete, hl] using ⟨hnd, htot, hcount, hdf⟩
  | some d₀ =>
    have hfind : s.doc_stats.find? (fun d => d.doc_id == i) = some d₀ := hl
    refine ⟨?_, ?_, ?_, ?_⟩
    · rw [delete_doc_stats s i d₀ hl]
      exact ((List.filter_sublist s.doc_stats).map _).nodup hnd
    · rw [delete_total s i d₀ hl, delete_doc_stats s i d₀ hl]
      have hsum : ((s.doc_stats.filter (fun d => d.doc_id != i)).map
          (fun d => d.doc_length)).sum + d₀.doc_length =
          (s.doc_stats.map (fun d => d.doc_length)).sum := by
        simpa using sum_filter_add (fun d => d.doc_length) s.doc_stats i d₀ hnd hfind
      omega
    · intro t j
      rw [delete_inverted s i d₀ hl t]
      have hstat : statsTF (s.delete i) j t =
          if j = i then 0 else statsTF s j t := by
        by_cases hj : j = i
        · simp [hj, statsTF, lookup_delete_self]
        · simp [hj, statsTF, lookup_delete_other s i j hj]
      rw [hstat]
      by_cases hj : j = i
      · subst hj
        rw [if_pos rfl]
        by_cases htf : d₀.term_freq t ≠ 0
        · rw [if_pos htf]
          exact count_filter_self _ _
        · rw [if_neg htf]
          have hc : (s.inverted_index t).count j = d₀.term_freq t := by
            simpa [statsTF, hl] using hcount t j
          omega
      · rw [if_neg hj]
        by_cases htf : d₀.term_freq t ≠ 0
        · rw [if_pos htf, count_filter_other _ _ _ hj]
          exact hcount t j
        · rw [if_neg htf]
          exact hcount t j
    · intro t
      have hsum : ((s.doc_stats.filter (fun d => d.doc_id != i)).map
          (fun d => d.term_freq t)).sum + d₀.term_freq t =
          (s.doc_stats.map (fun d => d.term_freq t)).sum := by
        simpa using sum_filter_add (fun d => d.term_freq t) s.doc_stats i d₀ hnd hfind
      have hlen := length_filter_add_count (s.inverted_index t) i
      have hct : (s.inverted_index t).count i = d₀.term_freq t := by
        simpa [statsTF, hl] using hcount t i
      have hdft := hdf t
      rw [Index.doc_frequency] at hdft
      rw [Index.doc_frequency, delete_inverted s i d₀ hl t,
        delete_doc_stats s i d₀ hl]
      by_cases htf : d₀.term_freq t ≠ 0
      · rw [if_pos htf]
        omega
      · rw [if_neg htf]
        omega

theorem upsert_good (s : Index) (doc : String) (i : ℕ) (hg : GoodState s) :
    GoodState (s.upsert doc i) := by
  unfold Index.upsert
  by_cases hl : (lookupStats s i).isSome
  · simp only [if_pos hl]
    exact insert_good _ _ _ (delete_good s i hg) (lookup_delete_self s i)
  · simp only [if_neg hl]
    refine insert_good _ _ _ hg ?_
    cases h : lookupStats s i with
    | none => rfl
    | some d => exact absurd (by simp [h]) hl

theorem good_new : GoodState Index.new := by
  refine ⟨by simp [Index.new], by simp [Index.new], ?_, by simp [Index.new, Index.doc_frequency]⟩
  intro t i
  simp [Index.new, statsTF, lookupStats]

theorem foldl_good (ops : List Op) (s : Index) (hg : GoodState s) :
    GoodState (ops.foldl applyOp s) := by
  induction ops generalizing s with
  | nil => exact hg
  | cons op rest ih =>
    refine ih _ ?_
    cases op with
    | upsert doc i => exact upsert_good s doc i hg
    | delete i => exact delete_good s i hg

theorem runOps_good (ops : List Op) : GoodState (runOps ops) :=
  foldl_good ops Index.new good_new

/-! ### Idempotence of upsert -/

theorem delete_k (s : Index) (i : ℕ) : (s.delete i).k = s.k := by
  cases hl : lookupStats s i <;> simp [Index.delete, hl]

theorem delete_b (s : Index) (i : ℕ) : (s.delete i).b = s.b := by
  cases hl : lookupStats s i <;> simp [Index.delete, hl]

theorem filter_replicate_self (c i : ℕ) :
    (List.replicate c i).filter (fun j => j != i) = [] := by
  apply List.filter_eq_nil_iff.mpr
  intro a ha
  have := List.eq_of_mem_replicate ha
  simp [this]

/-- Deleting a freshly inserted document restores the state, provided the
state held no trace of the document beforehand. -/
theorem delete_insert (s : Index) (doc : String) (i : ℕ)
    (h0 : ∀ t, (s.inverted_index t).count i = 0)
    (hfil : s.doc_stats.filter (fun d => d.doc_id != i) = s.doc_stats) :
    (s.insert doc i).delete i = s := by
  have hlook := lookup_insert_self s doc i
  ext1
  · funext t
    rw [delete_inverted _ _ _ hlook t, insert_inverted]
    by_cases hc : (stemmer (tokenize doc)).count t ≠ 0
    · rw [if_pos (by simpa [term_frequency] using hc), List.filter_append,
        filter_replicate_self, filter_ne_of_count_zero _ _ (h0 t), List.append_nil]
    · rw [if_neg (by simpa [term_frequency] using hc)]
      have : (stemmer (tokenize doc)).count t = 0 := by omega
      simp [insert_inverted, this]
  · rw [delete_doc_stats _ _ _ hlook, insert_doc_stats, hfil, List.filter_append,
      hfil]
    simp
  · rw [delete_total _ _ _ hlook, insert_total]
    simp
  · rw [delete_k]
    rfl
  · rw [delete_b]
    rfl

theorem upsert_pre_count (s : Index) (i : ℕ)
    (hwf : ∀ t j, (s.inverted_index t).count j = statsTF s j t) :
    ∀ t, ((if (lookupStats s i).isSome then s.delete i else s).inverted_index t).count i = 0 := by
  intro t
  cases hl : lookupStats s i with
  | none =>
    simp only [hl, Option.isSome_none, Bool.false_eq_true, if_false]
    simpa [statsTF, hl] using hwf t i
  | some d₀ =>
    simp only [hl, Option.isSome_some, if_true]
    rw [delete_inverted s i d₀ hl t]
    by_cases htf : d₀.term_freq t ≠ 0
    · rw [if_pos htf]
      exact count_filter_self _ _
    · rw [if_neg htf]
      have := hwf t i
      rw [statsTF, hl] at this
      simp only at this
      omega

theorem upsert_pre_filter (s : Index) (i : ℕ) :
    ((if (lookupStats s i).isSome then s.delete i else s).doc_stats).filter
        (fun d => d.doc_id != i) =
      (if (lookupStats s i).isSome then s.delete i else s).doc_stats := by
  cases hl : lookupStats s i with
  | none =>
    simp only [hl, Option.isSome_none, Bool.false_eq_true, if_false]
    exact filter_ne_of_find?_none _ _ hl
  | some d₀ =>
    simp only [hl, Option.isSome_some, if_true]
    rw [delete_doc_stats s i d₀ hl]
    exact filter_ne_idem _ _

theorem upsert_upsert (s : Index) (doc : String) (i : ℕ)
    (hwf : ∀ t j, (s.inverted_index t).count j = statsTF s j t) :
    (s.upsert doc i).upsert doc i = s.upsert doc i := by
  have hA : s.upsert doc i =
      (if (lookupStats s i).isSome then s.delete i else s).insert doc i := rfl
  have hlook : (lookupStats (s.upsert doc i) i).isSome = true := by
    rw [hA, lookup_insert_self]
    rfl
  have hstep : (s.upsert doc i).upsert doc i =
      ((s.upsert doc i).delete i).insert doc i := by
    rw [Index.upsert, if_pos hlook]
  rw [hstep, hA, delete_insert _ doc i (upsert_pre_count s i hwf)
    (upsert_pre_filter s i)]

/-! ### The heap order -/

theorem lexLe_total : ∀ a b : ℝ × ℕ, lexLe a b ∨ lexLe b a := by
  intro a b
  rcases lt_trichotomy a.1 b.1 with h | h | h
  · exact Or.inl (Or.inl h)
  · rcases Nat.le_total a.2 b.2 with h2 | h2
    · exact Or.inl (Or.inr ⟨h, h2⟩)
    · exact Or.inr (Or.inr ⟨h.symm, h2⟩)
  · exact Or.inr (Or.inl h)

theorem lexLe_trans : ∀ a b c : ℝ × ℕ, lexLe a b → lexLe b c → lexLe a c := by
  intro a b c hab hbc
  rcases hab with h1 | ⟨h1, h1n⟩ <;> rcases hbc with h2 | ⟨h2, h2n⟩
  · exact Or.inl (h1.trans h2)
  · exact Or.inl (h2 ▸ h1)
  · exact Or.inl (lt_of_le_of_lt h1.le h2)
  · exact Or.inr ⟨h1.trans h2, h1n.trans h2n⟩

instance : IsTotal (ℝ × ℕ) lexLe := ⟨lexLe_total⟩

instance : IsTrans (ℝ × ℕ) lexLe := ⟨lexLe_trans⟩

theorem pushTopK_length (top_k : ℕ) (h : List (ℝ × ℕ)) (x : ℝ × ℕ) :
    (pushTopK top_k h x).length =
      if h.length < top_k then h.length + 1 else h.length := by
  rw [pushTopK.eq_def]
  by_cases hl : h.length < top_k
  · rw [if_pos hl, if_pos hl, List.orderedInsert_length]
  · rw [if_neg hl, if_neg hl]
    cases h with
    | nil => rfl
    | cons m rest =>
      by_cases hm : m.1 < x.1
      · simp only [if_pos hm, List.orderedInsert_length, List.length_cons]
      · simp only [if_neg hm]

theorem listAll_iff_forall (p : α → Prop) (l : List α) :
    listAll p l ↔ ∀ x ∈ l, p x := by
  induction l with
  | nil => simp [listAll]
  | cons x xs ih => simp [listAll, ih]

theorem listAll_imp (p q : α → Prop) (h : ∀ x, p x → q x) (l : List α)
    (hl : listAll p l) : listAll q l := by
  rw [listAll_iff_forall] at hl ⊢
  exact fun x hx => h x (hl x hx)

theorem listAll_reverse (p : α → Prop) (l : List α) :
    listAll p l.reverse ↔ listAll p l := by
  rw [listAll_iff_forall, listAll_iff_forall]
  simp

theorem listAll_orderedInsert (p : ℝ × ℕ → Prop) (x : ℝ × ℕ)
    (h : List (ℝ × ℕ)) (hx : p x) (hh : listAll p h) :
    listAll p (h.orderedInsert lexLe x) := by
  rw [listAll_iff_forall] at hh ⊢
  intro y hy
  rcases (List.mem_orderedInsert lexLe).mp hy with hyx | hym
  · exact hyx ▸ hx
  · exact hh y hym

theorem listAll_pushTopK (p : ℝ × ℕ → Prop) (top_k : ℕ) (h : List (ℝ × ℕ))
    (x : ℝ × ℕ) (hx : p x) (hh : listAll p h) : listAll p (pushTopK top_k h x) := by
  rw [pushTopK.eq_def]
  by_cases hl : h.length < top_k
  · rw [if_pos hl]
    exact listAll_orderedInsert p x h hx hh
  · rw [if_neg hl]
    cases h with
    | nil => exact hh
    | cons m rest =>
      by_cases hm : m.1 < x.1
      · simp only [if_pos hm]
        exact listAll_orderedInsert p x rest hx hh.2
      · simp only [if_neg hm]
        exact hh

theorem sorted_pushTopK (top_k : ℕ) (h : List (ℝ × ℕ)) (x : ℝ × ℕ)
    (hs : h.Sorted lexLe) : (pushTopK top_k h x).Sorted lexLe := by
  rw [pushTopK.eq_def]
  by_cases hl : h.length < top_k
  · rw [if_pos hl]
    exact List.Sorted.orderedInsert x h hs
  · rw [if_neg hl]
    cases h with
    | nil => exact hs
    | cons m rest =>
      by_cases hm : m.1 < x.1
      · simp only [if_pos hm]
        exact List.Sorted.orderedInsert x rest (List.Pairwise.of_cons hs)
      · simp only [if_neg hm]
        exact hs

theorem foldl_inv {γ : Type} (P : List (ℝ × ℕ) → Prop)
    (f : List (ℝ × ℕ) → γ → List (ℝ × ℕ))
    (hf : ∀ h c, P h → P (f h c)) :
    ∀ (l : List γ) (h : List (ℝ × ℕ)), P h → P (l.foldl f h) := by
  intro l
  induction l with
  | nil => exact fun h hh => hh
  | cons c cs ih => exact fun h hh => ih _ (hf _ _ hh)

theorem searchHeap_sorted (s : Index) (qts : List String) (top_k : ℕ) :
    (searchHeap s qts top_k).Sorted lexLe := by
  rw [searchHeap]
  apply foldl_inv (fun h => h.Sorted lexLe)
  · intro h c hh
    cases hl : lookupStats s c with
    | none => simpa [hl] using hh
    | some doc =>
      simp only [hl]
      exact sorted_pushTopK _ _ _ hh
  · exact List.sorted_nil

theorem searchHeap_entries (s : Index) (qts : List String) (top_k : ℕ) :
    listAll (fun p => (lookupStats s p.2).isSome = true ∧
      p.1 = assignedScoreQts s qts p.2) (searchHeap s qts top_k) := by
  rw [searchHeap]
  apply foldl_inv (listAll (fun p => (lookupStats s p.2).isSome = true ∧
    p.1 = assignedScoreQts s qts p.2))
  · intro h c hh
    cases hl : lookupStats s c with
    | none => simpa [hl] using hh
    | some doc =>
      simp only [hl]
      refine listAll_pushTopK _ _ _ _ ⟨by simp [hl], ?_⟩ hh
      simp [assignedScoreQts, hl]
  · exact trivial

theorem foldl_step_length (s : Index) (top_k : ℕ) (g : ℕ → DocumentStats → ℝ × ℕ) :
    ∀ (l : List ℕ) (h : List (ℝ × ℕ)), h.length ≤ top_k →
      (l.foldl (fun h doc_id =>
        match lookupStats s doc_id with
        | none => h
        | some doc => pushTopK top_k h (g doc_id doc)) h).length =
      min top_k (h.length + (l.filter (fun i => (lookupStats s i).isSome)).length) := by
  intro l
  induction l with
  | nil =>
    intro h hh
    simp [Nat.min_eq_right hh]
  | cons c cs ih =>
    intro h hh
    simp only [List.foldl_cons, List.filter_cons]
    cases hl : lookupStats s c with
    | none =>
      simp only [hl, Option.isSome_none, Bool.false_eq_true, if_false]
      exact ih h hh
    | some doc =>
      simp only [hl, Option.isSome_some, if_true]
      have hlen := pushTopK_length top_k h (g c doc)
      by_cases hlt : h.length < top_k
      · rw [if_pos hlt] at hlen
        rw [ih _ (by omega), hlen]
        simp only [List.length_cons]
        omega
      · rw [if_neg hlt] at hlen
        rw [ih _ (by omega), hlen]
        simp only [List.length_cons]
        omega

theorem searchHeap_length (s : Index) (qts : List String) (top_k : ℕ) :
    (searchHeap s qts top_k).length =
      min top_k
        ((candidateIds s qts).filter (fun i => (lookupStats s i).isSome)).length := by
  have h := foldl_step_length s top_k
    (fun doc_id doc => (scoreDoc s qts (avgR s) (numDocsR s) doc, doc_id))
    (candidateIds s qts) [] (by simp)
  simpa [searchHeap] using h

/-! ### The code's score versus the spec's per-term formula -/

theorem foldl_add_eq_sum (f : String → ℝ) (l : List String) (a : ℝ) :
    l.foldl (fun acc t => acc + f t) a = a + (l.map f).sum := by
  induction l generalizing a with
  | nil => simp
  | cons t ts ih => simp [ih, add_assoc]

theorem scoreDoc_eq_sum (s : Index) (qts : List String) (avg numDocs : ℝ)
    (d : DocumentStats) :
    scoreDoc s qts avg numDocs d =
      (qts.map (specTermContribution s numDocs avg d)).sum := by
  simp only [scoreDoc]
  have hbody : (fun (score : ℝ) (term : String) =>
      if d.term_freq term ≠ 0 then
        if 0 < ((s.doc_frequency term : ℕ) : ℝ) then
          score + ((d.term_freq term : ℝ) /
              (s.k * ((1 - s.b) + s.b * (d.doc_length : ℝ) / avg) +
                (d.term_freq term : ℝ))) *
            Real.log ((numDocs - (s.doc_frequency term : ℝ) + 0.5) /
              ((s.doc_frequency term : ℝ) + 0.5) + 1)
        else score
      else score) =
      fun (score : ℝ) (term : String) =>
        score + specTermContribution s numDocs avg d term := by
    funext score term
    rw [specTermContribution]
    by_cases h1 : d.term_freq term ≠ 0
    · by_cases h2 : (0 : ℝ) < ((s.doc_frequency term : ℕ) : ℝ)
      · have hdf : ¬(s.doc_frequency term = 0 ∨ d.term_freq term = 0) := by
          push_neg
          refine ⟨?_, h1⟩
          have := Nat.cast_pos.mp h2
          omega
        rw [if_pos h1, if_pos h2, if_neg hdf]
        ring_nf
      · have hdf : s.doc_frequency term = 0 := by
          by_contra hne
          exact h2 (Nat.cast_pos.mpr (by omega))
        rw [if_pos h1, if_neg h2, if_pos (Or.inl hdf)]
        simp
    · rw [if_neg h1, if_pos (Or.inr (by omega))]
      simp
  rw [hbody, foldl_add_eq_sum]
  simp

/-! ### Claim theorems -/

/-- C1: the claim says every posting set equals the set of doc ids whose
term-frequency map contains the term, equivalently that doc_frequency is the
number of distinct documents containing the term.  The code appends the doc
id once per occurrence, so after indexing "like like" as document 1 the
posting list has length 2 while only one distinct document contains "like". -/
theorem c1_doc_frequency_counts_occurrences :
    (Index.new.upsert "like like" 1).doc_frequency "like" = 2 ∧
    distinctDocCount (Index.new.upsert "like like" 1) "like" = 1 := by
  constructor <;> decide

/-- C4: the claim says delete decrements doc_frequency by exactly 1 for each
term of the deleted document.  Deleting document 1 = "b b" removes both of
its posting entries for "b", so doc_frequency drops from 2 to 0. -/
theorem c4_delete_decrements_by_occurrence_count :
    (Index.new.upsert "b b" 1).doc_frequency "b" = 2 ∧
    ((Index.new.upsert "b b" 1).delete 1).doc_frequency "b" = 0 := by
  constructor <;> decide

/-- C5: after every finite sequence of upsert and delete operations starting
from the empty index, total_doc_lengths equals the sum of doc_length over
all documents currently stored in doc_stats. -/
theorem c5_total_doc_lengths_invariant (ops : List Op) :
    (runOps ops).total_doc_lengths =
      (((runOps ops).doc_stats).map (fun d => d.doc_length)).sum :=
  (runOps_good ops).2.1

/-- C6: in every index state satisfying the posting-count invariant that the
public API maintains, upserting the same document twice yields a state equal
(hence observationally identical, including all future searches) to
upserting it once. -/
theorem c6_upsert_idempotent (s : Index) (doc : String) (i : ℕ)
    (hwf : ∀ t j, (s.inverted_index t).count j = statsTF s j t) :
    (s.upsert doc i).upsert doc i = s.upsert doc i :=
  upsert_upsert s doc i hwf

theorem c6_upsert_idempotent_witness :
    (∀ t j, (Index.new.inverted_index t).count j = statsTF Index.new j t) ∧
    (Index.new.upsert "a" 1).upsert "a" 1 = Index.new.upsert "a" 1 := by
  have hwf : ∀ t j, (Index.new.inverted_index t).count j = statsTF Index.new j t := by
    intro t j
    simp [Index.new, statsTF, lookupStats]
  exact ⟨hwf, c6_upsert_idempotent Index.new "a" 1 hwf⟩

/-- C8: the claim says delete returns a boolean.  The code's delete returns
nothing; behaviourally, deleting an absent id is a no-op that leaves the
index unchanged, and deleting a present id removes the document. -/
theorem c8_delete_behaviour :
    Index.new.delete 42 = Index.new ∧
    ((Index.new.upsert "a" 1).delete 1).doc_stats.length = 0 := by
  refine ⟨rfl, by decide⟩

/-- C9: the claim says construction accepts k and b and validates them.  The
code's constructor takes no configuration, cannot fail, and always produces
the default constants k = 1.5 and b = 0.75. -/
theorem c9_new_fixed_constants :
    Index.new.k = 1.5 ∧ Index.new.b = 0.75 :=
  ⟨rfl, rfl⟩

/-- C10: in every state reachable by upsert and delete from the empty index,
each term's posting list contains a document's id once per stored occurrence
of the term in that document, and consequently doc_frequency is the total
occurrence count of the term over all indexed documents. -/
theorem c10_posting_multiset_invariant (ops : List Op) (t : String) (i : ℕ) :
    ((runOps ops).inverted_index t).count i = statsTF (runOps ops) i t ∧
    (runOps ops).doc_frequency t =
      (((runOps ops).doc_stats).map (fun d => d.term_freq t)).sum :=
  ⟨(runOps_good ops).2.2.1 t i, (runOps_good ops).2.2.2 t⟩

/-- C2 (amended): in every index state with at least one document, every
entry returned by search carries the score obtained by summing the BM25
contribution over ALL normalized query-term occurrences (a duplicated query
term contributes once per occurrence), each contribution being the spec's
tf/(tf + k(1 - b + b len/avg)) ln((N - df + 0.5)/(df + 0.5) + 1) with a
tf = 0 or df = 0 term contributing 0. -/
theorem c2_search_scores (s : Index) (query : String) (top_k : ℕ)
    (_hne : 0 < s.doc_stats.length) :
    listAll (fun p => p.1 = specScoreOccOfId s (searchQueryTerms query) p.2)
      (s.search query top_k) := by
  rw [Index.search, listAll_reverse]
  refine listAll_imp _ _ ?_ _ (searchHeap_entries s (searchQueryTerms query) top_k)
  rintro ⟨sc, i⟩ ⟨hsome, hscore⟩
  cases hl : lookupStats s i with
  | none =>
    rw [hl] at hsome
    simp at hsome
  | some d =>
    simp only at hscore
    simp only [specScoreOccOfId, hl]
    rw [hscore]
    simp only [assignedScoreQts, hl]
    rw [specScoreOcc]
    exact scoreDoc_eq_sum s (searchQueryTerms query) (avgR s) (numDocsR s) d

/-- C2 counterexample: with the single document "a" indexed as id 1, the
query "a a" (a duplicated term) makes search assign twice the distinct-terms
spec score, because the inner scoring loop runs once per query-term
occurrence; the contribution is strictly positive, so the sums differ. -/
theorem c2_distinct_terms_counterexample :
    ¬ listAll (fun p => p.1 = specScoreDistinctOfId (Index.new.upsert "a" 1)
      (searchQueryTerms "a a") p.2)
      ((Index.new.upsert "a" 1).search "a a" 1) := by
  have tok_a : tokenize "a" = ["a"] := by decide
  have tok_aa : tokenize "a a" = ["a", "a"] := by decide
  simp [Index.search, searchHeap, Index.upsert, Index.insert, Index.new,
    lookupStats, Index.delete, stemmer, tok_a, tok_aa, searchQueryTerms,
    candidateIds, sortNat, insSorted, dedupAdj, scoreDoc, pushTopK,
    List.orderedInsert, term_frequency, Index.doc_frequency,
    updateInvertedIndex, listAll, specScoreDistinctOfId, specScoreDistinct,
    specTermContribution, avgR, numDocsR, List.dedup]
  intro heq
  rw [show ((1 : ℝ) + 1.5) = 1.5 + 1 by norm_num] at heq
  have hlog : 0 < Real.log ((0.5 : ℝ) / (1 + 0.5) + 1) :=
    Real.log_pos (by norm_num)
  have hc : (0 : ℝ) < (1.5 + 1)⁻¹ * Real.log ((0.5 : ℝ) / (1 + 0.5) + 1) := by
    positivity
  linarith

theorem c2_search_scores_witness :
    0 < (Index.new.upsert "a" 1).doc_stats.length ∧
    listAll (fun p => p.1 = specScoreOccOfId (Index.new.upsert "a" 1)
      (searchQueryTerms "a") p.2)
      ((Index.new.upsert "a" 1).search "a" 3) :=
  ⟨by decide, c2_search_scores (Index.new.upsert "a" 1) "a" 3 (by decide)⟩

/-- C3 (amended): for every index state, query and top_k, the list returned
by search is sorted descending in the lexicographic (score, doc_id) order:
scores are non-increasing, and entries with equal scores appear in
descending (non-increasing) doc_id order, not ascending; during selection,
when a new candidate's score equals the current minimum retained score, the
already-retained entry is kept. -/
theorem c3_search_order (s : Index) (query : String) (top_k : ℕ) :
    (s.search query top_k).Pairwise (fun x y => lexLe y x) ∧
    ∀ (hp : List (ℝ × ℕ)) (x m : ℝ × ℕ) (rest : List (ℝ × ℕ)),
      hp.length = top_k → hp = m :: rest → x.1 = m.1 →
      pushTopK top_k hp x = hp := by
  constructor
  · rw [Index.search, List.pairwise_reverse]
    exact searchHeap_sorted s (searchQueryTerms query) top_k
  · intro hp x m rest hlen hcons hscore
    subst hcons
    rw [pushTopK.eq_def, if_neg (by omega)]
    simp only
    rw [if_neg (by rw [← hscore]; exact lt_irrefl _)]

/-- C3 counterexample: two identical documents "a" (ids 1 and 2) receive
exactly equal scores, and search returns them as [(s, 2), (s, 1)] — equal
scores in DESCENDING doc id order, violating the claimed ascending
tie-break of the output. -/
theorem c3_tie_order_counterexample :
    ¬ claimOrderedC3 (((Index.new.upsert "a" 1).upsert "a" 2).search "a" 2) := by
  have tok_a : tokenize "a" = ["a"] := by decide
  simp [claimOrderedC3, Index.search, searchHeap, Index.upsert, Index.insert,
    Index.new, lookupStats, Index.delete, stemmer, tok_a, searchQueryTerms,
    candidateIds, sortNat, insSorted, dedupAdj, scoreDoc, pushTopK,
    List.orderedInsert, term_frequency, Index.doc_frequency,
    updateInvertedIndex, avgR, numDocsR, lexLe, List.pairwise_cons]

theorem c3_search_order_witness :
    (Index.new.search "a" 2).Pairwise (fun x y => lexLe y x) ∧
    pushTopK 2 [((1 : ℝ), 5), ((1 : ℝ), 7)] ((1 : ℝ), 9) =
      [((1 : ℝ), 5), ((1 : ℝ), 7)] :=
  ⟨(c3_search_order Index.new "a" 2).1,
   (c3_search_order Index.new "a" 2).2 [((1 : ℝ), 5), ((1 : ℝ), 7)]
     ((1 : ℝ), 9) ((1 : ℝ), 5) [((1 : ℝ), 7)] rfl rfl rfl⟩

/-- C7 (amended): the length of the search result equals
min(top_k, number of distinct currently-indexed candidate ids); in
particular it never exceeds top_k, top_k = 0 or a query with no indexed
terms yields an empty list, and every returned doc id is currently indexed.
Candidates with non-positive scores are NOT filtered out. -/
theorem c7_search_bounds (s : Index) (query : String) (top_k : ℕ) :
    (s.search query top_k).length =
      min top_k ((candidateIds s (searchQueryTerms query)).filter
        (fun i => (lookupStats s i).isSome)).length ∧
    listAll (fun p => (lookupStats s p.2).isSome = true)
      (s.search query top_k) := by
  constructor
  · rw [Index.search, List.length_reverse, searchHeap_length]
  · rw [Index.search, listAll_reverse]
    exact listAll_imp _ _ (fun x hx => hx.1) _
      (searchHeap_entries s (searchQueryTerms query) top_k)

/-- C7 counterexample: the single document "a a" (id 1) is the only
candidate for the query "a"; its score is negative (doc_frequency 2 exceeds
the single-document corpus, making the idf logarithm negative), yet search
still returns it, so the output length is 1 while the claim's
min(top_k, number of candidates with positive score) is 0. -/
theorem c7_positive_score_counterexample :
    ¬ ((Index.new.upsert "a a" 1).search "a" 5).length =
      min 5 (posCandCount (Index.new.upsert "a a" 1) "a") := by
  have tok_a : tokenize "a" = ["a"] := by decide
  have tok_aa : tokenize "a a" = ["a", "a"] := by decide
  have hlen : ((Index.new.upsert "a a" 1).search "a" 5).length = 1 := by
    rw [Index.search, List.length_reverse, searchHeap_length]
    decide
  have hneg : assignedScore (Index.new.upsert "a a" 1) "a" 1 < 0 := by
    simp [assignedScore, assignedScoreQts, Index.upsert, Index.insert,
      Index.new, lookupStats, Index.delete, stemmer, tok_a, tok_aa,
      searchQueryTerms, scoreDoc, term_frequency, Index.doc_frequency,
      updateInvertedIndex, avgR, numDocsR]
    have hlog : Real.log (((1 : ℝ) - 2 + 0.5) / (2 + 0.5) + 1) < 0 := by
      rw [show ((1 : ℝ) - 2 + 0.5) / (2 + 0.5) + 1 = 0.8 by norm_num]
      exact Real.log_neg (by norm_num) (by norm_num)
    have hpos : (0 : ℝ) < 2 / (1.5 + 2) := by norm_num
    exact mul_neg_of_pos_of_neg hpos hlog
  have hpos : posCandCount (Index.new.upsert "a a" 1) "a" = 0 := by
    rw [posCandCount]
    have hcand : candidateIds (Index.new.upsert "a a" 1)
        (searchQueryTerms "a") = [1] := by decide
    rw [hcand, List.filter_cons, decide_eq_false (not_lt.mpr hneg.le)]
    rfl
  rw [hlen, hpos]
  norm_num

end BM25
